import Mathlib

/-!
Shallow embedding of the card collection and transfer core of the
card-games repository (Pile/Deck/Hand/Table managers), together with
theorems settling the specification claims about it.

Sources embedded:
* `pile/pile.manager.ts` — the event-emitting `Pile` class (ordered card
  list, capacity/duplicate rules, splice-based add/remove, transfer).
* `deck/deck.manager.ts` — the `Deck` class (simple push/pop pile with a
  discard list, back-asset defaulting, `reset`).
* `hand/hand.manager.ts` — the `Hand` class (card list plus selection
  state with the id-or-suit/value matching rule).
* `table/table.manager.ts` — both `Table` classes (transfer pipeline,
  game-state machine, `setCurrentPlayer`).

Mutable JS objects are embedded as immutable values: every operation
takes the object state and returns the result, the new state and the
list of events emitted, in emission order.  JS array `splice` on natural
indices is embedded with `List.take`/`List.drop` (both clamp at the list
length exactly as `splice` clamps its start index).
-/

namespace CardGames

/-- Embedding of `CardProperties` (card.types.ts).  Only the fields read or
written by the core logic are kept: `id` (identity), `suit`/`value` (used by
Hand's matching rule), `assetKey`/`backAssetKey`/`displayName` (display
data; `backAssetKey` is optional in TS — the empty string stands for the
falsy absent value, matching the `!card.backAssetKey` truthiness test). -/
structure CardProperties where
  id : String
  assetKey : String
  backAssetKey : String
  suit : String
  value : Int
  displayName : String
  deriving DecidableEq, Repr

/-- Events emitted by `Pile` (pile.manager.ts, `PILE_EVENTS`).  Payload
fields that matter to the claims (card, position) are kept. -/
inductive PileEvent where
  | cardAdded (card : CardProperties) (position : Nat)
  | cardsAdded (cards : List CardProperties) (positions : List Nat)
  | cardRemoved (card : CardProperties) (position : Nat)
  | cardsRemoved (cards : List CardProperties)
  | pileShuffled
  | pileCleared (cards : List CardProperties)
  | cardsOrganized
  | pileChanged
  deriving DecidableEq, Repr

/-- State of the event-emitting `Pile` class (pile.manager.ts): the ordered
card list (index 0 = bottom, last = top) and the configuration fields
`maxCards` / `allowDuplicates` from `PileConfig`. -/
structure Pile where
  cards : List CardProperties
  maxCards : Option Nat
  allowDuplicates : Bool
  deriving DecidableEq, Repr

/-- `Pile.hasCard` (pile.manager.ts): `this.cards.some(card => card.id === cardId)`. -/
def Pile.hasCard (p : Pile) (cardId : String) : Bool :=
  p.cards.any (fun c => c.id == cardId)

/-- `Pile.isFull` (pile.manager.ts:370-372):
`this.config.maxCards ? this.cards.length >= this.config.maxCards : false`.
The conditional tests JS truthiness, so both an absent `maxCards` and a
configured `maxCards` of `0` yield `false`. -/
def Pile.isFull (p : Pile) : Bool :=
  match p.maxCards with
  | none => false
  | some m => decide (m ≠ 0) && decide (p.cards.length ≥ m)

/-- `Pile.canAddCard` (pile.manager.ts:374-378). -/
def Pile.canAddCard (p : Pile) (c : CardProperties) : Bool :=
  if p.isFull then false
  else if !p.allowDuplicates && p.hasCard c.id then false
  else true

/-- JS `array.splice(i, 0, a)` on a natural index: insert `a` at position
`i`; `splice` clamps a start index beyond the length to the length, exactly
as `List.take`/`List.drop` do. -/
def spliceInsert (l : List α) (i : Nat) (a : α) : List α :=
  l.take i ++ a :: l.drop i

/-- `Pile.addCard` (pile.manager.ts:137-159).  Returns the boolean result,
the new pile and the emitted events. -/
def Pile.addCard (p : Pile) (c : CardProperties) (position : Option Nat) :
    Bool × Pile × List PileEvent :=
  if p.canAddCard c then
    let insertPosition := position.getD p.cards.length
    (true, { p with cards := spliceInsert p.cards insertPosition c },
      [.cardAdded c insertPosition, .pileChanged])
  else
    (false, p, [])

/-- Loop body of `Pile.addCards` (pile.manager.ts:165-170): for the input
card at index `idx`, if `canAddCard` holds for the *current* state the card
is spliced in at `insertPosition + idx` and appended to `addedCards`.
Returns the final card list and the accepted cards in order. -/
def addCardsGo (maxCards : Option Nat) (allowDuplicates : Bool)
    (insertPosition idx : Nat) (cur : List CardProperties) :
    List CardProperties → List CardProperties × List CardProperties
  | [] => (cur, [])
  | c :: rest =>
    if Pile.canAddCard { cards := cur, maxCards, allowDuplicates } c then
      let r := addCardsGo maxCards allowDuplicates insertPosition (idx + 1)
        (spliceInsert cur (insertPosition + idx) c) rest
      (r.1, c :: r.2)
    else
      addCardsGo maxCards allowDuplicates insertPosition (idx + 1) cur rest

/-- `Pile.addCards` (pile.manager.ts:161-185): best-effort batch insert;
emits one `CARDS_ADDED` (with positions `insertPosition + index` over the
accepted list) and `PILE_CHANGED` only when at least one card was accepted. -/
def Pile.addCards (p : Pile) (cs : List CardProperties) (position : Option Nat) :
    List CardProperties × Pile × List PileEvent :=
  let insertPosition := position.getD p.cards.length
  let r := addCardsGo p.maxCards p.allowDuplicates insertPosition 0 p.cards cs
  let events : List PileEvent :=
    if r.2.isEmpty then []
    else [.cardsAdded r.2 ((List.range r.2.length).map (insertPosition + ·)), .pileChanged]
  (r.2, { p with cards := r.1 }, events)

/-- `Pile.removeCard` (pile.manager.ts:187-207): returns `null` and emits
nothing on an empty pile; otherwise `splice(removePosition, 1)` with the
default position `length - 1` (top).  A position at or beyond the length
removes nothing (`splice` returns an empty batch, the guarded event block
is skipped and `null` is returned). -/
def Pile.removeCard (p : Pile) (position : Option Nat) :
    Option CardProperties × Pile × List PileEvent :=
  if p.cards.isEmpty then (none, p, [])
  else
    let removePosition := position.getD (p.cards.length - 1)
    match p.cards[removePosition]? with
    | some c =>
        (some c,
         { p with cards := p.cards.take removePosition ++ p.cards.drop (removePosition + 1) },
         [.cardRemoved c removePosition, .pileChanged])
    | none => (none, p, [])

/-- `Pile.transferCardTo` (pile.manager.ts:388-409): locate the card by id
(`findCardIndex`) or default to the top, remove it, try `targetPile.addCard`;
if the target rejects it, add the removed card back to this pile. -/
def Pile.transferCardTo (p : Pile) (target : Pile) (cardId : Option String) :
    Option CardProperties × Pile × Pile :=
  let removed : Option CardProperties × Pile :=
    match cardId with
    | some cid =>
      match p.cards.findIdx? (fun c => c.id == cid) with
      | none => (none, p)
      | some i =>
        let r := p.removeCard (some i)
        (r.1, r.2.1)
    | none =>
      let r := p.removeCard none
      (r.1, r.2.1)
  match removed with
  | (none, p') => (none, p', target)
  | (some c, p') =>
    let r := target.addCard c none
    if r.1 then (some c, p', r.2.1)
    else (none, (p'.addCard c none).2.1, target)

/-! ### Table transfer pipeline (table.manager.ts:102-205, first Table class) -/

/-- Events emitted by the first `Table` class during a transfer
(`TABLE_EVENTS`). -/
inductive TableEvent where
  | startTransfer
  | actionBlocked
  | completeTransfer (cards : List CardProperties)
  | cancelTransfer
  deriving DecidableEq, Repr

/-- A JS runtime exception reaching the `try`/`catch` of
`Table.executeTransfer`. -/
inductive JsError where
  | typeError
  deriving DecidableEq, Repr

/-- `Table.validateTransfer` (table.manager.ts:142-161) guards the
existence check with `'contains' in event.source`.  The `Pile` class
(pile.manager.ts) defines `hasCard` but no member named `contains`, so for
a `Pile` source the guard is false, every card falls to the
`return true; // Assume valid if we can't check` branch and validation
always passes. -/
def validateTransfer (_source : Pile) (_cards : List CardProperties) : Bool :=
  true

/-- The dynamic call `(event.source as any).findCard(card.id)` in
`Table.executeTransfer` (table.manager.ts:169).  `Pile.findCard`
(pile.manager.ts:346-348) expects a predicate and evaluates
`this.cards.find(predicate)`; here it receives the id *string*, and
`Array.prototype.find` throws a `TypeError` when its argument is not
callable (ECMA-262, step 3 of `Array.prototype.find`, before any element
is inspected).  The call therefore never yields a card and always raises. -/
def findCardDyn (_source : Pile) (_cardId : String) :
    Except JsError (Option CardProperties) :=
  .error .typeError

/-- The dynamic call `(event.source as any).removeSpecificCard(card.id)`
(table.manager.ts:171).  `Pile.removeSpecificCard` (pile.manager.ts:240-259)
compares `c === card` against each element; a card object is never
strictly equal to an id string, so `findIndex` yields `-1` and the pile is
returned unchanged.  (Dead code behind `findCardDyn`, kept for fidelity.) -/
def removeSpecificCardDyn (source : Pile) (_cardId : String) : Pile :=
  source

/-- The removal loop of `Table.executeTransfer` (table.manager.ts:166-181)
for a `Pile` source (which has both `findCard` and `removeSpecificCard`
members).  An exception propagates out of the loop carrying whatever
source state the already-performed iterations produced. -/
def executeTransferGo (source : Pile) (removed : List CardProperties) :
    List CardProperties → Except (JsError × Pile) (Pile × List CardProperties)
  | [] => .ok (source, removed)
  | c :: rest =>
    match findCardDyn source c.id with
    | .error e => .error (e, source)
    | .ok found =>
      match found with
      | some foundCard =>
        let source' := removeSpecificCardDyn source c.id
        executeTransferGo source' (removed ++ [foundCard]) rest
      | none => executeTransferGo source removed rest

/-- `Table.executeTransfer` (table.manager.ts:163-205): remove the
requested cards from the source, batch-add the removed cards to the
target, emit `COMPLETE_TRANSFER` and return true; a thrown exception is
caught, `CANCEL_TRANSFER` is emitted and false is returned (cards removed
before the exception are not restored). -/
def executeTransfer (source target : Pile) (cards : List CardProperties) :
    Bool × Pile × Pile × List TableEvent :=
  match executeTransferGo source [] cards with
  | .ok (source', removedCards) =>
    let (_, target', _) := target.addCards removedCards none
    (true, source', target', [.completeTransfer removedCards])
  | .error (_, source') => (false, source', target, [.cancelTransfer])

/-- `Table.requestTransfer` (table.manager.ts:102-125): emit
`START_TRANSFER`, whose synchronous `handleStartTransfer` listener
(table.manager.ts:127-140) flips `cancellable` to false and emits
`ACTION_BLOCKED` when `validateTransfer` fails; if still cancellable,
execute the transfer, otherwise return false. -/
def requestTransfer (source : Pile) (cards : List CardProperties) (target : Pile) :
    Bool × Pile × Pile × List TableEvent :=
  let cancellable := validateTransfer source cards
  if cancellable then
    let (ok, source', target', events) := executeTransfer source target cards
    (ok, source', target', .startTransfer :: events)
  else
    (false, source, target, [.startTransfer, .actionBlocked])

/-! ### Table game state (table.manager.ts:236-258) -/

/-- The `gameState` union type of `Table`. -/
inductive GameState where
  | waiting
  | active
  | paused
  | ended
  deriving DecidableEq, Repr

/-- The four game-state methods of `Table`. -/
inductive GameOp where
  | startGame
  | endGame
  | pauseGame
  | resumeGame
  deriving DecidableEq, Repr

/-- `Table.startGame`/`endGame`/`pauseGame`/`resumeGame`
(table.manager.ts:236-258): `startGame` moves `waiting` to `active`,
`endGame` moves any state to `ended`, `pauseGame` moves `active` to
`paused`, `resumeGame` moves `paused` to `active`; every other call leaves
the state unchanged. -/
def stepGame (op : GameOp) (s : GameState) : GameState :=
  match op, s with
  | .startGame, .waiting => .active
  | .startGame, s => s
  | .endGame, _ => .ended
  | .pauseGame, .active => .paused
  | .pauseGame, s => s
  | .resumeGame, .paused => .active
  | .resumeGame, s => s

/-- Run a sequence of game-state calls. -/
def runGameOps (ops : List GameOp) (s : GameState) : GameState :=
  ops.foldl (fun s op => stepGame op s) s

/-! ### Table.setCurrentPlayer (both variants) -/

/-- Payload of the `TURN_CHANGED` event. -/
structure TurnChangedEvent where
  currentPlayer : String
  previousPlayer : Option String
  deriving DecidableEq, Repr

/-- `Table.setCurrentPlayer` of the first `Table` class
(table.manager.ts:260-266): it assigns `this.currentPlayer = playerId`
*first* and then reads `this.currentPlayer` for the event's
`previousPlayer` field.  No check against the player registry is made. -/
def setCurrentPlayer (_current : Option String) (playerId : String) :
    Option String × TurnChangedEvent :=
  let current' := some playerId
  (current', { currentPlayer := playerId, previousPlayer := current' })

/-- `Table.setCurrentPlayer` of the second `Table` class
(table.manager.ts:593-601): it saves `previousPlayer` before assigning.
No check against the player registry is made. -/
def setCurrentPlayerB (current : Option String) (playerId : String) :
    Option String × TurnChangedEvent :=
  let previousPlayer := current
  (some playerId, { currentPlayer := playerId, previousPlayer := previousPlayer })

/-- Fold of a sequence of `addCard` requests (card and optional position)
against a pile, keeping only the resulting pile state. -/
def applyAddSeq (p : Pile) (reqs : List (CardProperties × Option Nat)) : Pile :=
  reqs.foldl (fun p r => (p.addCard r.1 r.2).2.1) p

/-! ### Deck (deck/deck.manager.ts)

The `Deck` class extends the simple push/pop `Pile` (the
`cardsCanBeAdded`/`cardsCanBeRemoved` implementation in pile.manager.ts
whose `addCard` pushes and whose `removeCard` pops), adds a discard list,
and overrides the add operations to default a card's back asset. -/

/-- The back-asset defaulting applied by `Deck.addCard`/`addCards`/
`setBackAssetOnCards` (deck.manager.ts:36-61):
`if (!card.backAssetKey) card.backAssetKey = this.backAssetKey` — the
card's field is overwritten when falsy (absent or empty). -/
def setBackAsset (key : String) (c : CardProperties) : CardProperties :=
  if c.backAssetKey = "" then { c with backAssetKey := key } else c

/-- State of `Deck` (deck.manager.ts:15-87): the main card list inherited
from the simple pile, the discard list, and the deck's back asset key. -/
structure Deck where
  cards : List CardProperties
  discardPile : List CardProperties
  backAssetKey : String
  deriving DecidableEq, Repr

/-- The `Deck` constructor (deck.manager.ts:24-33): copy the seed cards,
then `setBackAssetOnCards` overwrites each card's falsy back asset. -/
def mkDeck (seed : List CardProperties) (backAssetKey : String) : Deck :=
  { cards := seed.map (setBackAsset backAssetKey),
    discardPile := [],
    backAssetKey := backAssetKey }

/-- `Deck.addCard` (deck.manager.ts:36-42): default the back asset, then
`super.addCard` pushes the card on top. -/
def Deck.addCard (d : Deck) (c : CardProperties) : Deck :=
  { d with cards := d.cards ++ [setBackAsset d.backAssetKey c] }

/-- `Deck.addCards` (deck.manager.ts:45-52): default the back asset on all
cards, then `super.addCards` pushes them. -/
def Deck.addCards (d : Deck) (cs : List CardProperties) : Deck :=
  { d with cards := d.cards ++ cs.map (setBackAsset d.backAssetKey) }

/-- The simple pile's `removeCard` inherited by `Deck`
(pile.manager.ts, `this.cards.pop() || null`): remove and return the last
card, or none on an empty deck. -/
def Deck.removeCard (d : Deck) : Option CardProperties × Deck :=
  (d.cards.getLast?, { d with cards := d.cards.dropLast })

/-- `Deck.discard` (deck.manager.ts:63-65): `this.discardPile.unshift(card)`. -/
def Deck.discard (d : Deck) (c : CardProperties) : Deck :=
  { d with discardPile := c :: d.discardPile }

/-- `Deck.reset` (deck.manager.ts:83-86):
`this.cards.push(...this.discardPile); this.discardPile = []`.  There is
no re-seed from any original card list. -/
def Deck.reset (d : Deck) : Deck :=
  { d with cards := d.cards ++ d.discardPile, discardPile := [] }

/-! ### Hand (hand/hand.manager.ts) -/

/-- Events emitted by `Hand` (`HAND_EVENTS`), with the payload parts the
claims are about. -/
inductive HandEvent where
  | cardAdded (card : CardProperties)
  | cardRemoved (card : CardProperties)
  | selectionChanged (selectedCards : List CardProperties)
  deriving DecidableEq, Repr

/-- State of `Hand` (hand.manager.ts): `handState.cards`,
`handState.selectedCards` and the configuration flags the embedded
operations read.  `maxCards` guards `addCard`/`addCards` via the
`handState.isFull`/`cardCount` fields maintained by `updateState`. -/
structure Hand where
  cards : List CardProperties
  selectedCards : List CardProperties
  canPlay : Bool
  allowMultiSelect : Bool
  maxCards : Nat
  deriving DecidableEq, Repr

/-- The card comparison used throughout `Hand`
(hand.manager.ts, e.g. lines 107-109, 195-197, 201-203):
`c.id === card.id || (c.suit === card.suit && c.value === card.value)`,
where `c` is the element of the hand/selection and `card` the argument. -/
def cardMatch (c card : CardProperties) : Bool :=
  c.id == card.id || (c.suit == card.suit && c.value == card.value)

/-- JS `findIndex(pred)` followed by `splice(idx, 1)`: remove the first
element satisfying the predicate, returning it together with the
remaining list, or none when no element matches. -/
def removeFirst (pred : α → Bool) : List α → Option (α × List α)
  | [] => none
  | a :: as =>
    if pred a then some (a, as)
    else
      match removeFirst pred as with
      | none => none
      | some (x, rest) => some (x, a :: rest)

/-- `Hand.selectCard` (hand.manager.ts:192-219): fails when `canPlay` is
off, when no hand card matches the argument, or when a selected card
already matches it; with multi-select disabled a non-empty selection is
first cleared; then the *argument* card is pushed onto `selectedCards` and
`SELECTION_CHANGED` is emitted. -/
def Hand.selectCard (h : Hand) (card : CardProperties) : Bool × Hand × List HandEvent :=
  if !h.canPlay then (false, h, [])
  else if !(h.cards.any (fun c => cardMatch c card)) then (false, h, [])
  else if h.selectedCards.any (fun c => cardMatch c card) then (false, h, [])
  else
    let base :=
      if !h.allowMultiSelect && decide (h.selectedCards.length > 0) then []
      else h.selectedCards
    let sel := base ++ [card]
    (true, { h with selectedCards := sel }, [.selectionChanged sel])

/-- `Hand.deselectCard` (hand.manager.ts:224-238): remove the first
selected card matching the argument; fails when none matches. -/
def Hand.deselectCard (h : Hand) (card : CardProperties) : Bool × Hand × List HandEvent :=
  match removeFirst (fun c => cardMatch c card) h.selectedCards with
  | none => (false, h, [])
  | some (_, sel) => (true, { h with selectedCards := sel }, [.selectionChanged sel])

/-- `Hand.removeCard` (hand.manager.ts:106-131): find and splice out the
first hand card matching the argument; deselect the removed card (emitting
any `SELECTION_CHANGED` first), then emit `CARD_REMOVED`. -/
def Hand.removeCard (h : Hand) (card : CardProperties) : Bool × Hand × List HandEvent :=
  match removeFirst (fun c => cardMatch c card) h.cards with
  | none => (false, h, [])
  | some (removedCard, cards') =>
    let d := Hand.deselectCard { h with cards := cards' } removedCard
    (true, d.2.1, d.2.2 ++ [.cardRemoved removedCard])

/-- Loop of `Hand.removeCards` (hand.manager.ts:136-161): the per-card
body (find, splice, deselect, emit) is the body of `removeCard`; cards not
found are skipped.  Returns the final hand, the number removed and the
events. -/
def Hand.removeCardsGo (h : Hand) : List CardProperties → Hand × Nat × List HandEvent
  | [] => (h, 0, [])
  | card :: rest =>
    let r := h.removeCard card
    let k := Hand.removeCardsGo r.2.1 rest
    (k.1, (if r.1 then 1 else 0) + k.2.1, r.2.2 ++ k.2.2)

/-- `Hand.removeCards` (hand.manager.ts:136-161): best-effort batch
removal; returns whether every requested card was removed. -/
def Hand.removeCards (h : Hand) (cards : List CardProperties) : Bool × Hand × List HandEvent :=
  let r := Hand.removeCardsGo h cards
  (r.2.1 == cards.length, r.1, r.2.2)

/-- `Hand.addCard` (hand.manager.ts:59-76): rejected when the hand is full
(`handState.isFull`, i.e. `cards.length ≥ maxCards`), otherwise the card
is pushed and `CARD_ADDED` emitted. -/
def Hand.addCard (h : Hand) (card : CardProperties) : Bool × Hand × List HandEvent :=
  if h.cards.length ≥ h.maxCards then (false, h, [])
  else (true, { h with cards := h.cards ++ [card] }, [.cardAdded card])

/-- `Hand.addCards` (hand.manager.ts:81-101): rejected when the batch
would exceed `maxCards`, otherwise all cards are pushed with one
`CARD_ADDED` each. -/
def Hand.addCards (h : Hand) (cards : List CardProperties) : Bool × Hand × List HandEvent :=
  if h.cards.length + cards.length > h.maxCards then (false, h, [])
  else (true, { h with cards := h.cards ++ cards }, cards.map .cardAdded)

/-- `Hand.clear` (hand.manager.ts:166-183): empty both the card list and
the selection, emitting `CARD_REMOVED` per removed card. -/
def Hand.clear (h : Hand) : List CardProperties × Hand × List HandEvent :=
  (h.cards, { h with cards := [], selectedCards := [] }, h.cards.map .cardRemoved)

/-- `Hand.clearSelection` (hand.manager.ts:243-249). -/
def Hand.clearSelection (h : Hand) : Hand × List HandEvent :=
  ({ h with selectedCards := [] }, [.selectionChanged []])

/-- `Hand.toggleCardSelection` (hand.manager.ts:254-264). -/
def Hand.toggleCardSelection (h : Hand) (card : CardProperties) : Bool × Hand × List HandEvent :=
  if h.selectedCards.any (fun c => cardMatch c card) then h.deselectCard card
  else h.selectCard card

/-- `Hand.sortCards` (hand.manager.ts:464-472): in-place comparator sort
of the card list (the exact comparator — value then suit or suit then
value — only determines the resulting order, which is always a
permutation of the hand). -/
def Hand.sortCards (h : Hand) : Hand :=
  { h with cards := h.cards.mergeSort (fun a b => decide (a.value ≤ b.value)) }

/-- Hand states reachable from a freshly constructed (empty) hand through
the embedded `Hand` operations, where every `selectCard`/
`toggleCardSelection` argument is a card currently held in the hand — the
discipline of the UI layer, which passes the hand's own card objects.
(`playCards`/`playSelectedCards` factor through `removeCards` and
`clearSelection` and add no further state transitions.) -/
inductive HandReach : Hand → Prop where
  | init (canPlay allowMultiSelect : Bool) (maxCards : Nat) :
      HandReach { cards := [], selectedCards := [], canPlay := canPlay,
                  allowMultiSelect := allowMultiSelect, maxCards := maxCards }
  | addCard {h : Hand} (c : CardProperties) :
      HandReach h → HandReach (h.addCard c).2.1
  | addCards {h : Hand} (cs : List CardProperties) :
      HandReach h → HandReach (h.addCards cs).2.1
  | removeCard {h : Hand} (c : CardProperties) :
      HandReach h → HandReach (h.removeCard c).2.1
  | removeCards {h : Hand} (cs : List CardProperties) :
      HandReach h → HandReach (h.removeCards cs).2.1
  | selectCard {h : Hand} (c : CardProperties) :
      HandReach h → c ∈ h.cards → HandReach (h.selectCard c).2.1
  | deselectCard {h : Hand} (c : CardProperties) :
      HandReach h → HandReach (h.deselectCard c).2.1
  | toggle {h : Hand} (c : CardProperties) :
      HandReach h → c ∈ h.cards → HandReach (h.toggleCardSelection c).2.1
  | clearSelection {h : Hand} : HandReach h → HandReach (h.clearSelection).1
  | clear {h : Hand} : HandReach h → HandReach (h.clear).2.1
  | sortCards {h : Hand} : HandReach h → HandReach h.sortCards

/-- The selection invariant of a `Hand`: every selected entry is an
element of the card list, and no two selected entries match each other
(enforced at insertion by `selectCard`'s already-selected check). -/
def HandInv (h : Hand) : Prop :=
  (∀ s ∈ h.selectedCards, s ∈ h.cards) ∧
  h.selectedCards.Pairwise (fun a b => cardMatch a b = false)

/-! ### Concrete sample cards used by witnesses and counterexamples -/

def cardA : CardProperties :=
  { id := "A", assetKey := "aA", backAssetKey := "b", suit := "spades", value := 1, displayName := "A" }

def cardB : CardProperties :=
  { id := "B", assetKey := "aB", backAssetKey := "b", suit := "spades", value := 2, displayName := "B" }

def cardC : CardProperties :=
  { id := "C", assetKey := "aC", backAssetKey := "b", suit := "spades", value := 3, displayName := "C" }

def cardD : CardProperties :=
  { id := "D", assetKey := "aD", backAssetKey := "b", suit := "spades", value := 4, displayName := "D" }

def cardE : CardProperties :=
  { id := "E", assetKey := "aE", backAssetKey := "b", suit := "spades", value := 5, displayName := "E" }

/-- A pile holding the five sample cards bottom-to-top, no capacity. -/
def pileABCDE : Pile :=
  { cards := [cardA, cardB, cardC, cardD, cardE], maxCards := none, allowDuplicates := true }

/-- A card held in the sample hand. -/
def cardHa : CardProperties :=
  { id := "a", assetKey := "xa", backAssetKey := "b", suit := "hearts", value := 5, displayName := "Ha" }

/-- A card with a foreign id but the same suit and value as `cardHa`. -/
def cardHb : CardProperties :=
  { id := "b", assetKey := "xb", backAssetKey := "b", suit := "hearts", value := 5, displayName := "Hb" }

/-- A card whose `backAssetKey` is absent (falsy). -/
def cardNB : CardProperties :=
  { id := "NB", assetKey := "xnb", backAssetKey := "", suit := "clubs", value := 7, displayName := "NB" }

/-- A hand holding only `cardHa`, nothing selected. -/
def handHa : Hand :=
  { cards := [cardHa], selectedCards := [], canPlay := true,
    allowMultiSelect := true, maxCards := 10 }

/-- An empty deck with back asset `card_back`. -/
def emptyDeckCB : Deck :=
  { cards := [], discardPile := [], backAssetKey := "card_back" }

/-- A concrete reachable hand: start empty, add `cardHa`, select it. -/
def handW : Hand :=
  ((Hand.addCard
      { cards := [], selectedCards := [], canPlay := true,
        allowMultiSelect := true, maxCards := 10 } cardHa).2.1.selectCard cardHa).2.1

/-! ### Shared pile lemmas -/

/-- Default-position `removeCard` pops the last card: on `cards = cs ++ [c]`
it returns `c`, leaves `cs` and emits `CARD_REMOVED` then `PILE_CHANGED`. -/
theorem removeCard_concat (p : Pile) (cs : List CardProperties) (c : CardProperties)
    (h : p.cards = cs ++ [c]) :
    p.removeCard none =
      (some c, { p with cards := cs }, [.cardRemoved c cs.length, .pileChanged]) := by
  have hne : p.cards.isEmpty = false := by simp [h]
  have hlen : p.cards.length - 1 = cs.length := by simp [h]
  have hget : p.cards[cs.length]? = some c := by
    rw [h]
    rw [List.getElem?_append_right (Nat.le_refl _)]
    simp
  have htake : p.cards.take cs.length = cs := by
    rw [h, List.take_left]
  have hdrop : p.cards.drop (cs.length + 1) = [] := by
    rw [h]
    exact List.drop_eq_nil_of_le (by simp)
  simp [Pile.removeCard, hne, hlen, hget, htake, hdrop]

/-! ### Claim C7 -/

/-- Claim C7: for every sequence of `startGame`/`endGame`/`pauseGame`/
`resumeGame` calls, `gameState` follows only the transitions
waiting→active (startGame), active→paused (pauseGame), paused→active
(resumeGame) and any-state→ended (endGame); in particular once the state
is `ended` no later call changes it. -/
theorem gameState_transitions :
    (∀ (s : GameState) (op : GameOp),
        stepGame op s = s ∨
        (s = .waiting ∧ stepGame op s = .active ∧ op = .startGame) ∨
        (s = .active ∧ stepGame op s = .paused ∧ op = .pauseGame) ∨
        (s = .paused ∧ stepGame op s = .active ∧ op = .resumeGame) ∨
        (stepGame op s = .ended ∧ op = .endGame)) ∧
    (∀ ops : List GameOp, runGameOps ops .ended = .ended) := by
  constructor
  · intro s op
    cases s <;> cases op <;> simp [stepGame]
  · intro ops
    induction ops with
    | nil => rfl
    | cons op rest ih =>
        have hstep : stepGame op .ended = .ended := by cases op <;> rfl
        simpa [runGameOps, hstep] using ih

/-! ### Claim C8 -/

/-- Claim C8 (code bug, concrete evaluation): the first `Table` variant's
`setCurrentPlayer` assigns `currentPlayer` before building the event, so
with current player `p1` a call `setCurrentPlayer("p2")` emits
`previousPlayer = "p2"` (the *new* id) instead of `"p1"`; the second
variant emits `previousPlayer = "p1"` as the claim states.  Neither
variant checks that the id names a registered player. -/
theorem setCurrentPlayer_previousPlayer_eval :
    (setCurrentPlayer (some "p1") "p2").2 =
      { currentPlayer := "p2", previousPlayer := some "p2" } ∧
    (setCurrentPlayer (some "p1") "p2").2.previousPlayer ≠ some "p1" ∧
    (setCurrentPlayerB (some "p1") "p2").2 =
      { currentPlayer := "p2", previousPlayer := some "p1" } := by
  refine ⟨rfl, ?_, rfl⟩
  decide

/-! ### Claim C9 -/

/-- Claim C9: `removeCard()` with no position argument removes and returns
the last (top) card; on an empty pile it returns none and emits no event;
for the pile seeded `[A,B,C,D,E]` three successive default removals return
`E`, `D`, `C` and leave `[A,B]` of size 2. -/
theorem removeCard_top_spec :
    (∀ p : Pile, p.cards = [] → p.removeCard none = (none, p, [])) ∧
    (∀ (p : Pile) (cs : List CardProperties) (c : CardProperties),
        p.cards = cs ++ [c] →
        p.removeCard none =
          (some c, { p with cards := cs },
            [.cardRemoved c cs.length, .pileChanged])) ∧
    ((pileABCDE.removeCard none).1 = some cardE ∧
     (((pileABCDE.removeCard none).2.1.removeCard none).1 = some cardD ∧
      ((((pileABCDE.removeCard none).2.1.removeCard none).2.1.removeCard none).1 = some cardC ∧
       (((pileABCDE.removeCard none).2.1.removeCard none).2.1.removeCard none).2.1.cards
         = [cardA, cardB]))) := by
  refine ⟨?_, ?_, by decide⟩
  · intro p hp
    simp [Pile.removeCard, hp]
  · intro p cs c hp
    exact removeCard_concat p cs c hp

/-- Witness for C9: the hypothesised parts applied at concrete piles. -/
theorem removeCard_top_spec_witness :
    Pile.removeCard { cards := [], maxCards := none, allowDuplicates := true } none
      = (none, { cards := [], maxCards := none, allowDuplicates := true }, []) ∧
    pileABCDE.removeCard none =
      (some cardE, { pileABCDE with cards := [cardA, cardB, cardC, cardD] },
        [.cardRemoved cardE 4, .pileChanged]) :=
  ⟨removeCard_top_spec.1 _ rfl,
   by
     have h := removeCard_top_spec.2.1 pileABCDE [cardA, cardB, cardC, cardD] cardE (by decide)
     simpa using h⟩

/-! ### Claim C1 -/

/-- Claim C1 (code bug, evaluation): for every source pile, target pile
and single card, `requestTransfer(source, [c], target)` returns false and
leaves both piles unchanged, emitting `START_TRANSFER` then
`CANCEL_TRANSFER`: validation always passes (a `Pile` has no `contains`
member), and execution always throws a `TypeError` because
`source.findCard(card.id)` passes an id string where `findCard` expects a
predicate.  The transfer can therefore never succeed, contradicting the
claimed success behaviour. -/
theorem requestTransfer_always_fails :
    ∀ (source target : Pile) (c : CardProperties),
      requestTransfer source [c] target =
        (false, source, target, [.startTransfer, .cancelTransfer]) ∧
      validateTransfer source [c] = true := by
  intro source target c
  exact ⟨rfl, rfl⟩

/-! ### Claims C2 and C3: capacity and batch insertion -/

theorem spliceInsert_length (l : List α) (i : Nat) (a : α) :
    (spliceInsert l i a).length = l.length + 1 := by
  simp [spliceInsert]
  omega

theorem spliceInsert_of_le (l : List α) {i : Nat} (a : α) (h : l.length ≤ i) :
    spliceInsert l i a = l ++ [a] := by
  simp [spliceInsert, List.take_of_length_le h, List.drop_eq_nil_of_le h]

/-- `addCard` keeps the configuration fields. -/
theorem addCard_config (p : Pile) (c : CardProperties) (pos : Option Nat) :
    ((p.addCard c pos).2.1.maxCards = p.maxCards) ∧
    ((p.addCard c pos).2.1.allowDuplicates = p.allowDuplicates) := by
  unfold Pile.addCard
  by_cases h : p.canAddCard c <;> simp [h]

/-- A rejected `addCard` changes nothing and emits nothing. -/
theorem addCard_rejected (p : Pile) (c : CardProperties) (pos : Option Nat)
    (h : p.canAddCard c = false) : p.addCard c pos = (false, p, []) := by
  simp [Pile.addCard, h]

/-- One `addCard` step keeps `size ≤ N` for a truthy capacity `N`. -/
theorem addCard_length_le (N : Nat) (hN : 0 < N) (p : Pile)
    (hmax : p.maxCards = some N) (hlen : p.cards.length ≤ N)
    (c : CardProperties) (pos : Option Nat) :
    (p.addCard c pos).2.1.cards.length ≤ N := by
  unfold Pile.addCard
  by_cases h : p.canAddCard c
  · have hnotfull : p.isFull = false := by
      unfold Pile.canAddCard at h
      by_cases hf : p.isFull
      · simp [hf] at h
      · simpa using hf
    have hlt : p.cards.length < N := by
      unfold Pile.isFull at hnotfull
      rw [hmax] at hnotfull
      simp at hnotfull
      exact hnotfull (by omega)
    simp [h, spliceInsert_length]
    omega
  · simp [h]
    exact hlen

/-- Counterexample to claim C2 as stated: a pile configured with capacity
`N = 0` accepts a card (`maxCards` is tested for JS truthiness, and `0` is
falsy, so `isFull()` is false), so after one `addCard` call
`size() = 1 > 0 = N`. -/
theorem addCard_capacity_zero_counterexample :
    (Pile.addCard { cards := [], maxCards := some 0, allowDuplicates := true } cardA none).1
      = true ∧
    (Pile.addCard { cards := [], maxCards := some 0, allowDuplicates := true } cardA none).2.1.cards.length
      = 1 ∧ ¬ (1 ≤ 0) := by
  refine ⟨by decide, by decide, by omega⟩

/-- Claim C2 as amended: for every pile configured with a *truthy* capacity
`N > 0` (a configured capacity of `0` is falsy in JS and disables the
check), any sequence of `addCard` calls keeps `size() ≤ N`; and any
`addCard` call rejected by the capacity or duplicate rule (`canAddCard`
false) returns false, leaves the pile unchanged and emits no event. -/
theorem capacity_invariant (N : Nat) (hN : 0 < N) (p : Pile)
    (hmax : p.maxCards = some N) (hlen : p.cards.length ≤ N)
    (reqs : List (CardProperties × Option Nat)) :
    (applyAddSeq p reqs).cards.length ≤ N ∧
    (∀ (q : Pile) (c : CardProperties) (pos : Option Nat),
        q.canAddCard c = false → q.addCard c pos = (false, q, [])) := by
  refine ⟨?_, fun q c pos h => addCard_rejected q c pos h⟩
  induction reqs generalizing p with
  | nil => exact hlen
  | cons r rest ih =>
    have hstep := addCard_length_le N hN p hmax hlen r.1 r.2
    have hcfg := (addCard_config p r.1 r.2).1
    have : applyAddSeq p (r :: rest) = applyAddSeq (p.addCard r.1 r.2).2.1 rest := rfl
    rw [this]
    exact ih _ (hcfg.trans hmax) hstep

/-- Witness for C2: capacity 1, two append requests, final size is 1 ≤ 1. -/
theorem capacity_invariant_witness :
    (applyAddSeq { cards := [], maxCards := some 1, allowDuplicates := true }
        [(cardA, none), (cardB, none)]).cards.length ≤ 1 ∧
    Pile.addCard { cards := [cardA], maxCards := some 1, allowDuplicates := true } cardB none
      = (false, { cards := [cardA], maxCards := some 1, allowDuplicates := true }, []) :=
  ⟨(capacity_invariant 1 (by decide)
      { cards := [], maxCards := some 1, allowDuplicates := true } rfl (by decide)
      [(cardA, none), (cardB, none)]).1,
   (capacity_invariant 1 (by decide)
      { cards := [], maxCards := some 1, allowDuplicates := true } rfl (by decide)
      []).2 _ cardB none (by decide)⟩

/-- When the insertion base is at or beyond the current length (the
default append position), every accepted card of the `addCards` loop is
spliced at an index at or beyond the current length, i.e. appended: the
final card list is the starting list followed by the accepted cards in
order. -/
theorem addCardsGo_appends (m : Option Nat) (a : Bool) (ip : Nat) :
    ∀ (cs : List CardProperties) (idx : Nat) (cur : List CardProperties),
      cur.length ≤ ip + idx →
      (addCardsGo m a ip idx cur cs).1 = cur ++ (addCardsGo m a ip idx cur cs).2 := by
  intro cs
  induction cs with
  | nil => intro idx cur _; simp [addCardsGo]
  | cons c rest ih =>
    intro idx cur hle
    by_cases hc : Pile.canAddCard { cards := cur, maxCards := m, allowDuplicates := a } c
    · have hsp : spliceInsert cur (ip + idx) c = cur ++ [c] :=
        spliceInsert_of_le cur c hle
      have hle' : (cur ++ [c]).length ≤ ip + (idx + 1) := by
        simp
        omega
      have hrec := ih (idx + 1) (cur ++ [c]) hle'
      simp only [addCardsGo, hc, if_true, hsp]
      rw [hrec]
      simp
    · have hrec := ih (idx + 1) cur (by omega)
      simp only [addCardsGo, hc, if_false]
      exact hrec

/-- Counterexample to claim C3 as stated: pile `[A,B]` with duplicates
disallowed, `addCards([C,A,D], 0)`; `A` is rejected (duplicate id) between
the accepted `C` and `D`, and each accepted card is spliced at
`position + inputIndex`, so the result is `[C,A,D,B]` — the accepted
cards `C,D` are *not* one contiguous block at position 0 (which would be
`[C,D,A,B]`). -/
theorem addCards_gap_counterexample :
    (Pile.addCards { cards := [cardA, cardB], maxCards := none, allowDuplicates := false }
        [cardC, cardA, cardD] (some 0)).2.1.cards
      = [cardC, cardA, cardD, cardB] ∧
    (Pile.addCards { cards := [cardA, cardB], maxCards := none, allowDuplicates := false }
        [cardC, cardA, cardD] (some 0)).1 = [cardC, cardD] ∧
    [cardC, cardA, cardD, cardB] ≠ [cardC, cardD, cardA, cardB] := by
  refine ⟨by decide, by decide, by decide⟩

/-- Claim C3 as amended: `addCards` skips cards individually rejected by
the capacity or duplicate rule; with the *default* (append) position the
accepted cards are inserted as one contiguous block on top, in order
(`result = cards ++ accepted`); with an explicit position each accepted
card at input index `i` is spliced at `position + i`, so a rejected card
between two accepted ones leaves them non-contiguous; one batch
`CARDS_ADDED` event (then `PILE_CHANGED`) is emitted iff at least one card
was accepted. -/
theorem addCards_append_contiguous (p : Pile) (cs : List CardProperties) :
    (p.addCards cs none).2.1.cards = p.cards ++ (p.addCards cs none).1 ∧
    ((p.addCards cs none).2.2 ≠ [] ↔ (p.addCards cs none).1 ≠ []) := by
  have hgo := addCardsGo_appends p.maxCards p.allowDuplicates p.cards.length cs 0 p.cards
      (by omega)
  constructor
  · simp only [Pile.addCards, Option.getD_none]
    exact hgo
  · simp only [Pile.addCards, Option.getD_none]
    by_cases h : (addCardsGo p.maxCards p.allowDuplicates p.cards.length 0 p.cards cs).2.isEmpty
    · have h2 := List.isEmpty_iff.mp h
      simp [h, h2]
    · have h2 : (addCardsGo p.maxCards p.allowDuplicates p.cards.length 0 p.cards cs).2 ≠ [] := by
        simpa [List.isEmpty_iff] using h
      simp [h, h2]

/-- Witness for C3: the amended statement applied at the pile `[A]` and
batch `[B,C]`, with the conclusions evaluated. -/
theorem addCards_append_contiguous_witness :
    (Pile.addCards { cards := [cardA], maxCards := none, allowDuplicates := false }
        [cardB, cardC] none).2.1.cards
      = [cardA] ++ (Pile.addCards { cards := [cardA], maxCards := none, allowDuplicates := false }
        [cardB, cardC] none).1 :=
  (addCards_append_contiguous
    { cards := [cardA], maxCards := none, allowDuplicates := false } [cardB, cardC]).1

/-! ### Claim C5 -/

/-- Counterexample to claim C5 as stated: a deck seeded with `[A,B]`
(seed count 2) from which one card is drawn without being discarded;
`reset()` only appends the (empty) discard pile back, so the size after
`reset()` is 1, not the seed count 2. -/
theorem deck_reset_seed_counterexample :
    ((mkDeck [cardA, cardB] "b").removeCard.2.reset).cards.length = 1 ∧
    (mkDeck [cardA, cardB] "b").cards.length = 2 ∧
    (1 : Nat) ≠ 2 := by
  refine ⟨by decide, by decide, by decide⟩

/-- Claim C5 as amended: `reset()` does not re-seed from any original card
list (no `originalCards` exists); it moves the discard pile back into the
deck and clears it, so the size after `reset()` equals the deck size plus
the discard size at the call — the original seed count is recovered only
when every removed card was routed through `discard`.  `reset` is
idempotent: a second consecutive `reset()` changes nothing, so it yields
the same size both times. -/
theorem deck_reset_spec (d : Deck) :
    d.reset.cards.length = d.cards.length + d.discardPile.length ∧
    d.reset.discardPile = [] ∧
    d.reset.reset = d.reset := by
  refine ⟨by simp [Deck.reset], by simp [Deck.reset], by simp [Deck.reset]⟩

/-! ### Claim C6 -/

/-- Counterexample to claim C6 as stated: `Deck.addCard` mutates the
card's `backAssetKey` field when it is falsy — adding a card with an
absent back asset to a deck stores (and shares) the card with
`backAssetKey` overwritten to the deck's `card_back`. -/
theorem deck_addCard_mutates_backAssetKey :
    (emptyDeckCB.addCard cardNB).cards
      = [{ cardNB with backAssetKey := "card_back" }] ∧
    ({ cardNB with backAssetKey := "card_back" } : CardProperties) ≠ cardNB := by
  refine ⟨by decide, by decide⟩

/-- Claim C6 as amended: the only card-field write in the core is the
back-asset defaulting of `Deck.addCard`/`addCards`: a stored card keeps
`id`, `assetKey`, `suit`, `value` and `displayName` unchanged, is entirely
unchanged whenever its `backAssetKey` is already set (truthy), and
otherwise differs only in `backAssetKey` (set to the deck's); the
event-emitting `Pile` operations move card values unchanged — an accepted
`addCard` inserts the very card, and `removeCard` returns a card that was
in the pile. -/
theorem card_fields_frame (d : Deck) (c : CardProperties) :
    (d.addCard c).cards = d.cards ++ [setBackAsset d.backAssetKey c] ∧
    (setBackAsset d.backAssetKey c).id = c.id ∧
    (setBackAsset d.backAssetKey c).assetKey = c.assetKey ∧
    (setBackAsset d.backAssetKey c).suit = c.suit ∧
    (setBackAsset d.backAssetKey c).value = c.value ∧
    (setBackAsset d.backAssetKey c).displayName = c.displayName ∧
    (c.backAssetKey ≠ "" → setBackAsset d.backAssetKey c = c) ∧
    (∀ (p : Pile) (pos : Option Nat),
        p.canAddCard c = true → c ∈ (p.addCard c pos).2.1.cards) ∧
    (∀ (p : Pile) (pos : Option Nat) (x : CardProperties),
        (p.removeCard pos).1 = some x → x ∈ p.cards) := by
  refine ⟨rfl, ?_, ?_, ?_, ?_, ?_, ?_, ?_, ?_⟩
  · unfold setBackAsset; split <;> rfl
  · unfold setBackAsset; split <;> rfl
  · unfold setBackAsset; split <;> rfl
  · unfold setBackAsset; split <;> rfl
  · unfold setBackAsset; split <;> rfl
  · intro hne
    unfold setBackAsset
    simp [hne]
  · intro p pos hok
    simp [Pile.addCard, hok, spliceInsert]
  · intro p pos x hx
    unfold Pile.removeCard at hx
    by_cases hemp : p.cards.isEmpty
    · simp [hemp] at hx
    · simp only [hemp, Bool.false_eq_true, if_false] at hx
      rcases hget : p.cards[(pos.getD (p.cards.length - 1))]? with _ | y
      · rw [hget] at hx
        simp at hx
      · rw [hget] at hx
        simp at hx
        subst hx
        exact List.getElem?_mem hget

/-- Witness for C6: the unchanged-when-truthy clause and the insertion
clause applied at concrete inputs. -/
theorem card_fields_frame_witness :
    setBackAsset emptyDeckCB.backAssetKey cardA = cardA ∧
    cardA ∈ (Pile.addCard { cards := [], maxCards := none, allowDuplicates := true } cardA none).2.1.cards :=
  ⟨(card_fields_frame emptyDeckCB cardA).2.2.2.2.2.2.1 (by decide),
   (card_fields_frame emptyDeckCB cardA).2.2.2.2.2.2.2.1
     { cards := [], maxCards := none, allowDuplicates := true } none (by decide)⟩

/-! ### Claim C10 -/

theorem removeCard_at (p : Pile) (l₁ l₂ : List CardProperties) (x : CardProperties)
    (h : p.cards = l₁ ++ x :: l₂) :
    p.removeCard (some l₁.length) =
      (some x, { p with cards := l₁ ++ l₂ },
        [.cardRemoved x l₁.length, .pileChanged]) := by
  have hne : p.cards.isEmpty = false := by simp [h]
  have hget : p.cards[l₁.length]? = some x := by
    rw [h, List.getElem?_append_right (Nat.le_refl _)]
    simp
  have htake : p.cards.take l₁.length = l₁ := by rw [h, List.take_left]
  have hdrop : p.cards.drop (l₁.length + 1) = l₂ := by
    rw [h, show l₁ ++ x :: l₂ = (l₁ ++ [x]) ++ l₂ by simp,
      show l₁.length + 1 = (l₁ ++ [x]).length by simp]
    exact List.drop_left _ _
  simp [Pile.removeCard, hne, hget, htake, hdrop]

theorem addCard_true (q : Pile) (c : CardProperties) (hok : q.canAddCard c = true) :
    q.addCard c none =
      (true, { q with cards := q.cards ++ [c] },
        [.cardAdded c q.cards.length, .pileChanged]) := by
  simp [Pile.addCard, hok, spliceInsert_of_le q.cards c (Nat.le_refl _)]

theorem perm_concat_cons (l₁ l₂ : List α) (x : α) :
    ((l₁ ++ l₂) ++ [x]).Perm (l₁ ++ x :: l₂) :=
  (List.perm_append_singleton x (l₁ ++ l₂)).trans List.perm_middle.symm

theorem perm_move_out (l₁ l₂ t : List α) (x : α) :
    ((l₁ ++ l₂) ++ (t ++ [x])).Perm ((l₁ ++ x :: l₂) ++ t) := by
  have h1 : (l₁ ++ l₂) ++ (t ++ [x]) = ((l₁ ++ l₂) ++ t) ++ [x] := by
    simp [List.append_assoc]
  have h2 : (l₁ ++ x :: l₂) ++ t = l₁ ++ x :: (l₂ ++ t) := by simp
  rw [h1, h2]
  have h3 : ((l₁ ++ l₂) ++ t) ++ [x] = ((l₁ ++ (l₂ ++ t)) ++ [x]) := by
    simp [List.append_assoc]
  rw [h3]
  exact perm_concat_cons l₁ (l₂ ++ t) x

/-- Decomposition of a successful `findIdx?`: the list splits at the found
index, the found element satisfies the predicate and every earlier element
does not. -/
theorem findIdx?_decomp (pred : α → Bool) :
    ∀ (l : List α) (s i : Nat), List.findIdx? pred l s = some i →
      ∃ l₁ x l₂, l = l₁ ++ x :: l₂ ∧ s + l₁.length = i ∧ pred x = true ∧
        ∀ y ∈ l₁, pred y = false := by
  intro l
  induction l with
  | nil => intro s i h; simp [List.findIdx?] at h
  | cons a rest ih =>
    intro s i h
    have h2 : (if pred a then some s else List.findIdx? pred rest (s + 1)) = some i := h
    cases ha : pred a with
    | true =>
      rw [ha] at h2
      rw [if_pos rfl] at h2
      have hsi : s = i := Option.some.inj h2
      refine ⟨[], a, rest, by simp, by simpa using hsi, ha, by simp⟩
    | false =>
      rw [ha] at h2
      simp only [Bool.false_eq_true, if_false] at h2
      obtain ⟨l₁, x, l₂, hl, hlen, hx, hprev⟩ := ih (s + 1) i h2
      refine ⟨a :: l₁, x, l₂, by simp [hl], by simp; omega, hx, ?_⟩
      intro y hy
      rcases List.mem_cons.mp hy with rfl | hy2
      · exact ha
      · exact hprev y hy2

/-- After removing the card at a found position from a well-formed source
pile, adding the same card back is always accepted: the pile cannot be
full (its size dropped below the capacity bound) and, when duplicates are
disallowed, the removed card's id no longer occurs. -/
theorem canAdd_after_remove (S : Pile) (l₁ l₂ : List CardProperties) (x : CardProperties)
    (hS : S.cards = l₁ ++ x :: l₂)
    (hcap : ∀ m : Nat, S.maxCards = some m → 0 < m → S.cards.length ≤ m)
    (hdup : S.allowDuplicates = false → (S.cards.map (fun c => c.id)).Nodup) :
    Pile.canAddCard { S with cards := l₁ ++ l₂ } x = true := by
  have hlen2 : (l₁ ++ l₂).length + 1 = S.cards.length := by
    rw [hS]
    simp only [List.length_append, List.length_cons]
    omega
  have hfull : ∀ b : Bool,
      Pile.isFull { cards := l₁ ++ l₂, maxCards := S.maxCards, allowDuplicates := b } = false := by
    intro b
    show (match S.maxCards with
      | none => false
      | some m => decide (m ≠ 0) && decide ((l₁ ++ l₂).length ≥ m)) = false
    cases hm : S.maxCards with
    | none => rfl
    | some m =>
      by_cases hm0 : m = 0
      · subst hm0
        simp
      · have hle := hcap m hm (Nat.pos_of_ne_zero hm0)
        have harith : l₁.length + l₂.length < m := by
          simp only [List.length_append] at hlen2
          omega
        simp
        intro _
        exact harith
  rcases Bool.eq_false_or_eq_true S.allowDuplicates with hdval | hdval
  case inl => simp [Pile.canAddCard, hfull, hdval]
  case inr =>
    have hnd := hdup hdval
    rw [hS] at hnd
    have hperm : ((l₁ ++ x :: l₂).map (fun c => c.id)).Perm
        (x.id :: (l₁ ++ l₂).map (fun c => c.id)) := by
      simp only [List.map_append, List.map_cons]
      exact List.perm_middle
    have hnd2 : (x.id :: (l₁ ++ l₂).map (fun c => c.id)).Nodup :=
      hperm.nodup_iff.mp hnd
    have hnotin : x.id ∉ (l₁ ++ l₂).map (fun c => c.id) :=
      (List.nodup_cons.mp hnd2).1
    have hany : ((l₁ ++ l₂).any (fun c => c.id == x.id)) = false := by
      rw [List.any_eq_false]
      intro y hy
      simp only [beq_iff_eq]
      intro hid
      exact hnotin (List.mem_map.mpr ⟨y, hy, hid⟩)
    simp [Pile.canAddCard, hfull, hdval, Pile.hasCard, hany]

/-- Claim C10: for every source pile `S` satisfying its own structural
invariants (size within a truthy capacity; no duplicate ids when
duplicates are disallowed — both hold for every pile built through the
`Pile` API) and every target pile `T`, `S.transferCardTo(T, cardId?)`
preserves the combined multiset of cards: on success the card moves to
`T`'s top, and when `T.addCard` rejects it the removed card is added back
to `S`, so no card is lost or duplicated in any outcome. -/
theorem transferCardTo_preserves_cards (S T : Pile) (cid : Option String)
    (hcap : ∀ m : Nat, S.maxCards = some m → 0 < m → S.cards.length ≤ m)
    (hdup : S.allowDuplicates = false → (S.cards.map (fun c => c.id)).Nodup) :
    (((S.transferCardTo T cid).2.1.cards ++ (S.transferCardTo T cid).2.2.cards).Perm
      (S.cards ++ T.cards)) ∧
    (∀ c : CardProperties, (S.transferCardTo T cid).1 = some c →
        (S.transferCardTo T cid).2.2.cards = T.cards ++ [c]) := by
  cases cid with
  | none =>
    rcases List.eq_nil_or_concat' S.cards with hnil | ⟨cs, c, hS⟩
    · have hrem : S.removeCard none = (none, S, []) := by
        simp [Pile.removeCard, hnil]
      have hval : S.transferCardTo T none = (none, S, T) := by
        simp [Pile.transferCardTo, hrem]
      rw [hval]
      exact ⟨List.Perm.refl _, by intro c hc; cases hc⟩
    · have hrem := removeCard_concat S cs c hS
      by_cases hok : T.canAddCard c
      · have haddT := addCard_true T c hok
        have hval : S.transferCardTo T none =
            (some c, { S with cards := cs }, { T with cards := T.cards ++ [c] }) := by
          simp [Pile.transferCardTo, hrem, haddT]
        rw [hval]
        constructor
        · show (cs ++ (T.cards ++ [c])).Perm (S.cards ++ T.cards)
          rw [hS]
          simpa using perm_move_out cs ([] : List CardProperties) T.cards c
        · intro c0 hc0
          cases hc0
          rfl
      · have hokf : T.canAddCard c = false := by
          simpa using hok
        have haddT := addCard_rejected T c none hokf
        have hre : Pile.canAddCard { S with cards := cs } c = true := by
          have h0 := canAdd_after_remove S cs [] c (by simpa using hS) hcap hdup
          simpa using h0
        have haddS := addCard_true { S with cards := cs } c hre
        have hval : S.transferCardTo T none =
            (none, { S with cards := cs ++ [c] }, T) := by
          simp [Pile.transferCardTo, hrem, haddT, haddS]
        rw [hval]
        constructor
        · show ((cs ++ [c]) ++ T.cards).Perm (S.cards ++ T.cards)
          rw [hS]
        · intro c0 hc0
          cases hc0
  | some cidv =>
    cases hfind : S.cards.findIdx? (fun c => c.id == cidv) with
    | none =>
      have hval : S.transferCardTo T (some cidv) = (none, S, T) := by
        simp [Pile.transferCardTo, hfind]
      rw [hval]
      exact ⟨List.Perm.refl _, by intro c hc; cases hc⟩
    | some i =>
      obtain ⟨l₁, x, l₂, hS, hlen, _, _⟩ :=
        findIdx?_decomp (fun c => c.id == cidv) S.cards 0 i hfind
      have hidx : i = l₁.length := by omega
      subst hidx
      have hrem := removeCard_at S l₁ l₂ x hS
      by_cases hok : T.canAddCard x
      · have haddT := addCard_true T x hok
        have hval : S.transferCardTo T (some cidv) =
            (some x, { S with cards := l₁ ++ l₂ }, { T with cards := T.cards ++ [x] }) := by
          simp [Pile.transferCardTo, hfind, hrem, haddT]
        rw [hval]
        constructor
        · show ((l₁ ++ l₂) ++ (T.cards ++ [x])).Perm (S.cards ++ T.cards)
          rw [hS]
          exact perm_move_out l₁ l₂ T.cards x
        · intro c0 hc0
          cases hc0
          rfl
      · have hokf : T.canAddCard x = false := by
          simpa using hok
        have haddT := addCard_rejected T x none hokf
        have hre := canAdd_after_remove S l₁ l₂ x hS hcap hdup
        have haddS := addCard_true { S with cards := l₁ ++ l₂ } x hre
        have hval : S.transferCardTo T (some cidv) =
            (none, { S with cards := (l₁ ++ l₂) ++ [x] }, T) := by
          simp [Pile.transferCardTo, hfind, hrem, haddT, haddS]
        rw [hval]
        constructor
        · show (((l₁ ++ l₂) ++ [x]) ++ T.cards).Perm (S.cards ++ T.cards)
          rw [hS]
          exact (perm_concat_cons l₁ l₂ x).append_right T.cards
        · intro c0 hc0
          cases hc0

/-- Witness for C10: a transfer by id out of the two-card pile `[A,B]`
into an empty pile, with both invariant hypotheses discharged. -/
theorem transferCardTo_preserves_cards_witness :
    ((Pile.transferCardTo { cards := [cardA, cardB], maxCards := none, allowDuplicates := false }
        { cards := [], maxCards := none, allowDuplicates := false } (some "A")).2.1.cards ++
      (Pile.transferCardTo { cards := [cardA, cardB], maxCards := none, allowDuplicates := false }
        { cards := [], maxCards := none, allowDuplicates := false } (some "A")).2.2.cards).Perm
      ([cardA, cardB] ++ []) :=
  (transferCardTo_preserves_cards
    { cards := [cardA, cardB], maxCards := none, allowDuplicates := false }
    { cards := [], maxCards := none, allowDuplicates := false } (some "A")
    (by intro m hm _; cases hm) (by intro _; decide)).1

/-! ### Claim C4: Hand selection consistency -/

theorem cardMatch_self (a : CardProperties) : cardMatch a a = true := by
  simp [cardMatch]

theorem removeFirst_none (pred : α → Bool) :
    ∀ l : List α, removeFirst pred l = none → ∀ a ∈ l, pred a = false := by
  intro l
  induction l with
  | nil =>
    intro _ a ha
    simp at ha
  | cons b bs ih =>
    intro h a ha
    unfold removeFirst at h
    cases hb : pred b with
    | true =>
      rw [hb] at h
      rw [if_pos rfl] at h
      cases h
    | false =>
      rw [hb] at h
      simp only [Bool.false_eq_true, if_false] at h
      cases hr : removeFirst pred bs with
      | none =>
        rcases List.mem_cons.mp ha with rfl | ha2
        · exact hb
        · exact ih hr a ha2
      | some p =>
        obtain ⟨x, rest⟩ := p
        rw [hr] at h
        cases h

theorem removeFirst_some (pred : α → Bool) :
    ∀ (l : List α) (x : α) (rest : List α), removeFirst pred l = some (x, rest) →
      ∃ l₁ l₂, l = l₁ ++ x :: l₂ ∧ rest = l₁ ++ l₂ ∧ pred x = true ∧
        ∀ y ∈ l₁, pred y = false := by
  intro l
  induction l with
  | nil =>
    intro x rest h
    simp [removeFirst] at h
  | cons b bs ih =>
    intro x rest h
    unfold removeFirst at h
    cases hb : pred b with
    | true =>
      rw [hb] at h
      rw [if_pos rfl] at h
      have h2 := Option.some.inj h
      have hbx : b = x := congrArg Prod.fst h2
      have hbs : bs = rest := congrArg Prod.snd h2
      subst hbx
      subst hbs
      exact ⟨[], bs, by simp, by simp, hb, by simp⟩
    | false =>
      rw [hb] at h
      simp only [Bool.false_eq_true, if_false] at h
      cases hr : removeFirst pred bs with
      | none =>
        rw [hr] at h
        cases h
      | some p =>
        obtain ⟨x0, rest0⟩ := p
        rw [hr] at h
        have h2 := Option.some.inj h
        have hx : x0 = x := congrArg Prod.fst h2
        have hrest : b :: rest0 = rest := congrArg Prod.snd h2
        subst hx
        subst hrest
        obtain ⟨l₁, l₂, hl, hr2, hx2, hprev⟩ := ih x0 rest0 hr
        refine ⟨b :: l₁, l₂, by simp [hl], by simp [hr2], hx2, ?_⟩
        intro y hy
        rcases List.mem_cons.mp hy with rfl | hy2
        · exact hb
        · exact hprev y hy2

theorem mem_remove_mid {V M : α} (k₁ k₂ : List α) (hV : V ∈ k₁ ++ M :: k₂)
    (hne : V ≠ M) : V ∈ k₁ ++ k₂ := by
  rcases List.mem_append.mp hV with h1 | h2
  · exact List.mem_append.mpr (Or.inl h1)
  · rcases List.mem_cons.mp h2 with rfl | h3
    · exact absurd rfl hne
    · exact List.mem_append.mpr (Or.inr h3)

/-- Behaviour of `deselectCard` on a hand whose card list was just changed
to `cards'`, called with the removed card `M`: the resulting selection
holds only entries distinct from `M` that are in `cards'`, stays pairwise
non-matching, and the emitted events are all `SELECTION_CHANGED`. -/
theorem deselect_after_remove (h : Hand) (M : CardProperties) (cards' : List CardProperties)
    (hpair : h.selectedCards.Pairwise (fun a b => cardMatch a b = false))
    (hcards : ∀ V ∈ h.selectedCards, V ≠ M → V ∈ cards') :
    (Hand.deselectCard { h with cards := cards' } M).2.1.cards = cards' ∧
    (∀ V ∈ (Hand.deselectCard { h with cards := cards' } M).2.1.selectedCards,
      V ∈ cards' ∧ V ≠ M) ∧
    ((Hand.deselectCard { h with cards := cards' } M).2.1.selectedCards).Pairwise
      (fun a b => cardMatch a b = false) ∧
    (∀ e ∈ (Hand.deselectCard { h with cards := cards' } M).2.2,
      ∃ sel, e = HandEvent.selectionChanged sel) := by
  rcases hsel : removeFirst (fun s => cardMatch s M) h.selectedCards with _ | ⟨W, sel'⟩
  · have hval : Hand.deselectCard { h with cards := cards' } M =
        (false, { h with cards := cards' }, []) := by
      simp [Hand.deselectCard, hsel]
    rw [hval]
    have hnone := removeFirst_none _ _ hsel
    refine ⟨rfl, ?_, hpair, by simp⟩
    intro V hV
    have hV2 : V ∈ h.selectedCards := hV
    have hne : V ≠ M := by
      intro heq
      subst heq
      have hf := hnone V hV2
      rw [cardMatch_self] at hf
      cases hf
    exact ⟨hcards V hV2 hne, hne⟩
  · have hval : Hand.deselectCard { h with cards := cards' } M =
        (true, { h with cards := cards', selectedCards := sel' },
          [.selectionChanged sel']) := by
      simp [Hand.deselectCard, hsel]
    rw [hval]
    obtain ⟨s₁, s₂, hseq, hsel'eq, hWM, hs₁⟩ := removeFirst_some _ _ _ _ hsel
    have hpair2 : (s₁ ++ W :: s₂).Pairwise (fun a b => cardMatch a b = false) := by
      rw [← hseq]
      exact hpair
    obtain ⟨hp1, hp2, hp3⟩ := List.pairwise_append.mp hpair2
    have hWs₂ : ∀ b ∈ s₂, cardMatch W b = false := (List.pairwise_cons.mp hp2).1
    refine ⟨rfl, ?_, ?_, by simp⟩
    · intro V hV
      have hV2 : V ∈ s₁ ++ s₂ := by
        rw [← hsel'eq]
        exact hV
      have hVsel : V ∈ h.selectedCards := by
        rw [hseq]
        rcases List.mem_append.mp hV2 with h1 | h2
        · exact List.mem_append.mpr (Or.inl h1)
        · exact List.mem_append.mpr (Or.inr (List.mem_cons_of_mem W h2))
      have hne : V ≠ M := by
        rcases List.mem_append.mp hV2 with h1 | h2
        · intro heq
          subst heq
          have hf := hs₁ V h1
          rw [cardMatch_self] at hf
          cases hf
        · intro heq
          subst heq
          have hf := hWs₂ V h2
          rw [hf] at hWM
          cases hWM
      exact ⟨hcards V hVsel hne, hne⟩
    · show sel'.Pairwise (fun a b => cardMatch a b = false)
      rw [hsel'eq]
      have hsub : (s₁ ++ s₂).Sublist (s₁ ++ W :: s₂) :=
        (List.sublist_cons_self W s₂).append_left s₁
      exact List.Pairwise.sublist hsub hpair2

/-- Full specification of `Hand.removeCard` on a hand satisfying the
selection invariant: the invariant is preserved, and on success the last
emitted event is the `CARD_REMOVED` for the removed card, the removed card
is no longer selected, and every earlier event is a `SELECTION_CHANGED`. -/
theorem handRemoveCard_spec (h : Hand) (card : CardProperties)
    (hmem : ∀ V ∈ h.selectedCards, V ∈ h.cards)
    (hpair : h.selectedCards.Pairwise (fun a b => cardMatch a b = false)) :
    (∀ V ∈ (h.removeCard card).2.1.selectedCards, V ∈ (h.removeCard card).2.1.cards) ∧
    ((h.removeCard card).2.1.selectedCards).Pairwise (fun a b => cardMatch a b = false) ∧
    ((h.removeCard card).1 = true →
      ∃ rc, (h.removeCard card).2.2.getLast? = some (HandEvent.cardRemoved rc) ∧
        rc ∉ (h.removeCard card).2.1.selectedCards ∧
        ∀ e ∈ (h.removeCard card).2.2.dropLast, ∃ sel, e = HandEvent.selectionChanged sel) := by
  rcases hfind : removeFirst (fun c0 => cardMatch c0 card) h.cards with _ | ⟨M, cards'⟩
  · have hval : h.removeCard card = (false, h, []) := by
      simp [Hand.removeCard, hfind]
    rw [hval]
    refine ⟨hmem, hpair, ?_⟩
    intro h0
    simp at h0
  · obtain ⟨k₁, k₂, hkeq, hk', _, _⟩ := removeFirst_some _ _ _ _ hfind
    have hcards : ∀ V ∈ h.selectedCards, V ≠ M → V ∈ cards' := by
      intro V hV hne
      have hin : V ∈ h.cards := hmem V hV
      rw [hkeq] at hin
      rw [hk']
      exact mem_remove_mid k₁ k₂ hin hne
    have hd := deselect_after_remove h M cards' hpair hcards
    obtain ⟨hdcards, hdmem, hdpair, hdev⟩ := hd
    have hval : h.removeCard card =
        (true, (Hand.deselectCard { h with cards := cards' } M).2.1,
          (Hand.deselectCard { h with cards := cards' } M).2.2 ++ [.cardRemoved M]) := by
      simp [Hand.removeCard, hfind]
    rw [hval]
    refine ⟨?_, hdpair, ?_⟩
    · intro V hV
      rw [hdcards]
      exact (hdmem V hV).1
    · intro _
      refine ⟨M, List.getLast?_concat _, ?_, ?_⟩
      · intro hMin
        exact (hdmem M hMin).2 rfl
      · rw [List.dropLast_concat]
        exact hdev

theorem handRemoveCard_inv (h : Hand) (card : CardProperties) (hinv : HandInv h) :
    HandInv (h.removeCard card).2.1 :=
  ⟨(handRemoveCard_spec h card hinv.1 hinv.2).1,
   (handRemoveCard_spec h card hinv.1 hinv.2).2.1⟩

theorem handAddCard_inv (h : Hand) (c : CardProperties) (hinv : HandInv h) :
    HandInv (h.addCard c).2.1 := by
  by_cases hc : h.cards.length ≥ h.maxCards
  · simp only [Hand.addCard, if_pos hc]
    exact hinv
  · simp only [Hand.addCard, if_neg hc]
    exact ⟨fun V hV => List.mem_append.mpr (Or.inl (hinv.1 V hV)), hinv.2⟩

theorem handAddCards_inv (h : Hand) (cs : List CardProperties) (hinv : HandInv h) :
    HandInv (h.addCards cs).2.1 := by
  by_cases hc : h.cards.length + cs.length > h.maxCards
  · simp only [Hand.addCards, if_pos hc]
    exact hinv
  · simp only [Hand.addCards, if_neg hc]
    exact ⟨fun V hV => List.mem_append.mpr (Or.inl (hinv.1 V hV)), hinv.2⟩

theorem handClear_inv (h : Hand) : HandInv (h.clear).2.1 :=
  ⟨fun V hV => absurd hV (List.not_mem_nil V), List.Pairwise.nil⟩

theorem handClearSelection_inv (h : Hand) : HandInv (h.clearSelection).1 :=
  ⟨fun V hV => absurd hV (List.not_mem_nil V), List.Pairwise.nil⟩

theorem handDeselect_inv (h : Hand) (c : CardProperties) (hinv : HandInv h) :
    HandInv (h.deselectCard c).2.1 := by
  rcases hsel : removeFirst (fun s => cardMatch s c) h.selectedCards with _ | ⟨W, sel'⟩
  · have hval : h.deselectCard c = (false, h, []) := by
      simp [Hand.deselectCard, hsel]
    rw [hval]
    exact hinv
  · have hval : h.deselectCard c =
        (true, { h with selectedCards := sel' }, [.selectionChanged sel']) := by
      simp [Hand.deselectCard, hsel]
    rw [hval]
    obtain ⟨s₁, s₂, hseq, hsel'eq, _, _⟩ := removeFirst_some _ _ _ _ hsel
    constructor
    · intro V hV
      have hV2 : V ∈ s₁ ++ s₂ := by
        rw [← hsel'eq]
        exact hV
      have hVsel : V ∈ h.selectedCards := by
        rw [hseq]
        rcases List.mem_append.mp hV2 with h1 | h2
        · exact List.mem_append.mpr (Or.inl h1)
        · exact List.mem_append.mpr (Or.inr (List.mem_cons_of_mem W h2))
      exact hinv.1 V hVsel
    · show sel'.Pairwise (fun a b => cardMatch a b = false)
      rw [hsel'eq]
      have hpair2 : (s₁ ++ W :: s₂).Pairwise (fun a b => cardMatch a b = false) := by
        rw [← hseq]
        exact hinv.2
      have hsub : (s₁ ++ s₂).Sublist (s₁ ++ W :: s₂) :=
        (List.sublist_cons_self W s₂).append_left s₁
      exact List.Pairwise.sublist hsub hpair2

theorem handSelectCard_inv (h : Hand) (c : CardProperties) (hinv : HandInv h)
    (hc : c ∈ h.cards) : HandInv (h.selectCard c).2.1 := by
  cases hcp : h.canPlay with
  | false =>
    simp only [Hand.selectCard, hcp]
    exact hinv
  | true =>
    cases hex : h.cards.any (fun c0 => cardMatch c0 c) with
    | false =>
      simp only [Hand.selectCard, hcp, hex]
      exact hinv
    | true =>
      cases hal : h.selectedCards.any (fun c0 => cardMatch c0 c) with
      | true =>
        simp only [Hand.selectCard, hcp, hex, hal]
        simp
        exact hinv
      | false =>
        have hnotsel : ∀ s ∈ h.selectedCards, cardMatch s c = false := by
          rw [List.any_eq_false] at hal
          intro s hs
          have hns := hal s hs
          simpa using hns
        by_cases hms : (!h.allowMultiSelect && decide (h.selectedCards.length > 0)) = true
        · have hval : (h.selectCard c).2.1 = { h with selectedCards := [c] } := by
            simp [Hand.selectCard, hcp, hex, hal, hms]
          rw [hval]
          constructor
          · intro V hV
            have : V = c := by simpa using hV
            subst this
            exact hc
          · simp
        · have hms2 : (!h.allowMultiSelect && decide (h.selectedCards.length > 0)) = false := by
            simpa using hms
          have hval : (h.selectCard c).2.1 =
              { h with selectedCards := h.selectedCards ++ [c] } := by
            simp [Hand.selectCard, hcp, hex, hal, hms2]
          rw [hval]
          constructor
          · intro V hV
            rcases List.mem_append.mp hV with h1 | h2
            · exact hinv.1 V h1
            · have : V = c := by simpa using h2
              subst this
              exact hc
          · show (h.selectedCards ++ [c]).Pairwise (fun a b => cardMatch a b = false)
            rw [List.pairwise_append]
            refine ⟨hinv.2, by simp, ?_⟩
            intro a ha b hb
            have : b = c := by simpa using hb
            subst this
            exact hnotsel a ha

theorem handToggle_inv (h : Hand) (c : CardProperties) (hinv : HandInv h)
    (hc : c ∈ h.cards) : HandInv (h.toggleCardSelection c).2.1 := by
  cases hcond : h.selectedCards.any (fun c0 => cardMatch c0 c) with
  | true =>
    simp only [Hand.toggleCardSelection, hcond]
    simp
    exact handDeselect_inv h c hinv
  | false =>
    simp only [Hand.toggleCardSelection, hcond]
    simp
    exact handSelectCard_inv h c hinv hc

theorem handRemoveCardsGo_inv :
    ∀ (cs : List CardProperties) (h : Hand), HandInv h →
      HandInv (Hand.removeCardsGo h cs).1 := by
  intro cs
  induction cs with
  | nil =>
    intro h hinv
    exact hinv
  | cons c rest ih =>
    intro h hinv
    exact ih (h.removeCard c).2.1 (handRemoveCard_inv h c hinv)

theorem handRemoveCards_inv (h : Hand) (cs : List CardProperties) (hinv : HandInv h) :
    HandInv (h.removeCards cs).2.1 :=
  handRemoveCardsGo_inv cs h hinv

theorem handSort_inv (h : Hand) (hinv : HandInv h) : HandInv h.sortCards := by
  constructor
  · intro V hV
    exact List.mem_mergeSort.mpr (hinv.1 V hV)
  · exact hinv.2

/-- Every reachable hand satisfies the selection invariant. -/
theorem hand_inv_of_reach {h : Hand} (hr : HandReach h) : HandInv h := by
  induction hr with
  | init canPlay allowMultiSelect maxCards =>
    exact ⟨fun V hV => absurd hV (List.not_mem_nil V), List.Pairwise.nil⟩
  | addCard c _ ih => exact handAddCard_inv _ c ih
  | addCards cs _ ih => exact handAddCards_inv _ cs ih
  | removeCard c _ ih => exact handRemoveCard_inv _ c ih
  | removeCards cs _ ih => exact handRemoveCards_inv _ cs ih
  | selectCard c _ hc ih => exact handSelectCard_inv _ c ih hc
  | deselectCard c _ ih => exact handDeselect_inv _ c ih
  | toggle c _ hc ih => exact handToggle_inv _ c ih hc
  | clearSelection _ ih => exact handClearSelection_inv _
  | clear _ ih => exact handClear_inv _
  | sortCards _ ih => exact handSort_inv _ ih

/-- Counterexample to claim C4 as stated: the hand holding only the card
with id `a` (hearts 5) accepts `selectCard` for a card with the foreign id
`b` but the same suit and value — the existence check uses the
id-or-suit/value match and the *argument* card is pushed — so
`selectedCards` then holds id `b`, which identifies no card in the hand's
card sequence. -/
theorem selectCard_foreign_id_counterexample :
    (handHa.selectCard cardHb).1 = true ∧
    (handHa.selectCard cardHb).2.1.selectedCards.map (fun c => c.id) = ["b"] ∧
    (handHa.selectCard cardHb).2.1.cards.map (fun c => c.id) = ["a"] ∧
    ¬ ("b" ∈ (handHa.selectCard cardHb).2.1.cards.map (fun c => c.id)) := by
  refine ⟨by decide, by decide, by decide, by decide⟩

/-- Claim C4 as amended: for every hand reachable through the Hand API
with `selectCard`/`toggleCardSelection` applied to cards currently in the
hand (selection entries are then hand members, though the raw API also
accepts foreign cards that merely suit/value-match), every entry of
`selectedCards` is a card of the hand's card sequence at every point; and
`removeCard` preserves this, deselects the removed card before emitting
the removal event (any `SELECTION_CHANGED` precedes the final
`CARD_REMOVED`), and leaves the removed card unselected, so the selection
never dangles. -/
theorem hand_selection_invariant (h : Hand) (hr : HandReach h) :
    (∀ s ∈ h.selectedCards, s ∈ h.cards) ∧
    (∀ card : CardProperties,
      (∀ V ∈ (h.removeCard card).2.1.selectedCards, V ∈ (h.removeCard card).2.1.cards) ∧
      ((h.removeCard card).1 = true →
        ∃ rc, (h.removeCard card).2.2.getLast? = some (HandEvent.cardRemoved rc) ∧
          rc ∉ (h.removeCard card).2.1.selectedCards ∧
          ∀ e ∈ (h.removeCard card).2.2.dropLast,
            ∃ sel, e = HandEvent.selectionChanged sel)) := by
  have hinv := hand_inv_of_reach hr
  refine ⟨hinv.1, ?_⟩
  intro card
  have hs := handRemoveCard_spec h card hinv.1 hinv.2
  exact ⟨hs.1, hs.2.2⟩

/-- Witness for C4: the amended invariant applied to the concrete
reachable hand that added and then selected `cardHa`. -/
theorem hand_selection_invariant_witness :
    handW.selectedCards = [cardHa] ∧ cardHa ∈ handW.cards :=
  ⟨by decide,
   (hand_selection_invariant handW
      (HandReach.selectCard cardHa
        (HandReach.addCard cardHa (HandReach.init true true 10))
        (by decide))).1 cardHa (by decide)⟩

end CardGames
